/-
Verification of QuarmAnnounce's log-batching/matching engine, debounce timer
scheduler, announcement pipeline and file selector, as a shallow embedding.

Sources embedded:
- packages/monitor/src/lib.rs : find_most_recent_log, LogMonitor::process_one_batch,
  LogMonitor::schedule_timed_delay, LogMonitor::match_message
- src/src/log_monitor.rs      : the legacy LogMonitor::match_message (first-match only)
- packages/audio/src/lib.rs   : TtsEngine::precache, TtsEngine::announce
- packages/tauri-app/src/commands.rs : stop_monitoring

Strings are modelled as lists of characters; Rust's HashMap / HashSet are
modelled as association lists with overwrite-insert / insert-if-absent, which
preserves exactly the membership, key-uniqueness and last-write-wins semantics
the claims are about.  The tokio timer machinery is modelled by a virtual-time
operational state: spawned timer tasks carry an absolute deadline and an
aborted flag; `runUntil` advances virtual time, firing every pending
non-aborted task whose deadline has been reached (JoinHandle::abort marks a
still-pending task aborted and is a no-op on a task that already finished).
-/
import Mathlib

abbrev Str := List Char

/-- Rust `str::starts_with` on character lists (the guard used by
`find_most_recent_log` for the `eqlog_` file-name check). -/
def startsWith : Str → Str → Bool
  | _, [] => true
  | [], _ :: _ => false
  | c :: cs, p :: ps => if c = p then startsWith cs ps else false

/-- Rust `str::contains` with a string pattern: case-sensitive substring test,
as used by `LogMonitor::match_message`. -/
def strContains : Str → Str → Bool
  | [], pat => pat.isEmpty
  | line@(_ :: rest), pat => startsWith line pat || strContains rest pat

/-- `MessageConfig` from packages/config/src/lib.rs. -/
inductive MessageConfig where
  | Simple (pat ann : Str)
  | TimedDelay (pat ann : Str) (timer_delay_in_seconds : Nat)
deriving DecidableEq

/-- `MessageConfig::pattern`. -/
def MessageConfig.pattern : MessageConfig → Str
  | .Simple p _ => p
  | .TimedDelay p _ _ => p

/-- `MessageConfig::announcement`. -/
def MessageConfig.announcement : MessageConfig → Str
  | .Simple _ a => a
  | .TimedDelay _ a _ => a

/-- `LogMonitor::match_message` (packages/monitor/src/lib.rs:301-306):
`self.messages.iter().filter(|mc| line.contains(mc.pattern())).collect()`. -/
def matchMessage (messages : List MessageConfig) (line : Str) : List MessageConfig :=
  messages.filter (fun mc => strContains line mc.pattern)

/-- The legacy `LogMonitor::match_message` (src/src/log_monitor.rs:208-215):
iterates its `message_map` and returns the FIRST announcement whose pattern the
line contains, or `None`.  The map is a `HashMap`, so the iteration order is
some arbitrary order of its entries; we model it as iteration over an
association list. -/
def matchMessageLegacy : List (Str × Str) → Str → Option Str
  | [], _ => none
  | (pat, ann) :: rest, line =>
    if strContains line pat then some ann else matchMessageLegacy rest line

/-- `HashMap` lookup on the association-list model. -/
def lookupMap {α : Type} : List (Str × α) → Str → Option α
  | [], _ => none
  | (k, v) :: rest, key => if k = key then some v else lookupMap rest key

/-- `HashMap::insert` (overwrite-on-duplicate-key) on the association-list model. -/
def mapInsert {α : Type} : List (Str × α) → Str → α → List (Str × α)
  | [], key, v => [(key, v)]
  | (k, w) :: rest, key, v =>
    if k = key then (key, v) :: rest else (k, w) :: mapInsert rest key v

/-- `HashMap::remove` on the association-list model. -/
def removeKey {α : Type} : List (Str × α) → Str → List (Str × α)
  | [], _ => []
  | (k, w) :: rest, key => if k = key then rest else (k, w) :: removeKey rest key

/-- `HashSet::insert` on a duplicate-free list model. -/
def setInsert (s : List Str) (x : Str) : List Str :=
  if x ∈ s then s else s ++ [x]

abbrev TimedMap := List (Str × (Str × Nat))

/-- `BatchResult` from packages/monitor/src/lib.rs:55-61. -/
structure BatchResult where
  immediate : List Str
  timed_delay : TimedMap
deriving DecidableEq

/-- One classified match, as in the two identical `match config` arms of
`process_one_batch` (lib.rs:191-205 and 222-236): a `Simple` match inserts its
announcement into the immediate set, a `TimedDelay` match inserts
`(announcement, delay)` into the delayed map keyed by the pattern. -/
def applyMatch (acc : List Str × TimedMap) : MessageConfig → List Str × TimedMap
  | .Simple _ ann => (setInsert acc.1 ann, acc.2)
  | .TimedDelay pat ann d => (acc.1, mapInsert acc.2 pat (ann, d))

/-- Classify every match of one line, in `match_message` order. -/
def applyMatches : List Str × TimedMap → List MessageConfig → List Str × TimedMap
  | acc, [] => acc
  | acc, mc :: rest => applyMatches (applyMatch acc mc) rest

/-- Process one line of `process_one_batch`'s read loop. -/
def classifyLine (messages : List MessageConfig) (acc : List Str × TimedMap)
    (line : Str) : List Str × TimedMap :=
  applyMatches acc (matchMessage messages line)

/-- The batching loop over the remaining lines of the window. -/
def processBatchLines (messages : List MessageConfig) :
    List Str × TimedMap → List Str → List Str × TimedMap
  | acc, [] => acc
  | acc, l :: rest => processBatchLines messages (classifyLine messages acc l) rest

/-- `LogMonitor::process_one_batch` (packages/monitor/src/lib.rs:158-258), with
the reader abstracted to the list of lines available within the batching
window (the first blocking `read_line` plus the timeout-bounded loop).  A zero
byte first read (no lines) returns the `None` sentinel; otherwise every line of
the window is classified and the batch is returned. -/
def processOneBatch (messages : List MessageConfig) (lines : List Str) :
    Option BatchResult :=
  match lines with
  | [] => none
  | first :: rest =>
    let acc := processBatchLines messages (classifyLine messages ([], []) first) rest
    some ⟨acc.1, acc.2⟩

/-- The `TimedDelay` projection of a match, used to describe the sequence of
delayed matches a batch observes. -/
def toTimed : MessageConfig → Option (Str × (Str × Nat))
  | .Simple _ _ => none
  | .TimedDelay pat ann d => some (pat, (ann, d))

/-- All delayed matches observed in a batch window, in processing order. -/
def timedMatchSeq (messages : List MessageConfig) : List Str → List (Str × (Str × Nat))
  | [] => []
  | l :: rest => (matchMessage messages l).filterMap toTimed ++ timedMatchSeq messages rest

/-- The last value recorded for key `p` in an observation sequence (with a
default for "not observed"). -/
def lastFor (p : Str) : List (Str × (Str × Nat)) → Option (Str × Nat) → Option (Str × Nat)
  | [], dflt => dflt
  | (k, v) :: rest, dflt => lastFor p rest (if k = p then some v else dflt)

/-- A spawned timer task (`tokio::spawn` in `schedule_timed_delay`,
lib.rs:280-285): sleeps until `deadline` then announces.  `aborted` records a
`JoinHandle::abort` delivered while the task was still pending. -/
structure TimerTask where
  id : Nat
  deadline : Nat
  announcement : Str
  aborted : Bool
deriving DecidableEq

/-- Virtual-time state of the debounce timer scheduler: current time, a fresh
task-id counter, the pending spawned tasks, the `active_timers` registry
(pattern → task handle id), and the log of `(time, announcement)` firings. -/
structure SchedState where
  now : Nat
  nextId : Nat
  tasks : List TimerTask
  registry : List (Str × Nat)
  fired : List (Nat × Str)
deriving DecidableEq

def initState : SchedState := ⟨0, 0, [], [], []⟩

/-- `JoinHandle::abort`: marks the task aborted if it is still pending; a task
that already finished is no longer in `tasks`, so the abort is a no-op. -/
def abortTask (tasks : List TimerTask) (tid : Nat) : List TimerTask :=
  tasks.map (fun tk => if tk.id = tid then { tk with aborted := true } else tk)

/-- `LogMonitor::schedule_timed_delay` (packages/monitor/src/lib.rs:262-297):
remove and abort any existing timer for `pat`, spawn a fresh task that sleeps
`delay` from now and then announces, and register its handle under `pat`.  The
spawned closure only sleeps and announces; it does not touch the registry. -/
def schedule (s : SchedState) (pat ann : Str) (delay : Nat) : SchedState :=
  let s2 :=
    match lookupMap s.registry pat with
    | some tid =>
      { s with registry := removeKey s.registry pat, tasks := abortTask s.tasks tid }
    | none => s
  { s2 with
    tasks := s2.tasks ++ [⟨s2.nextId, s2.now + delay, ann, false⟩],
    registry := mapInsert s2.registry pat s2.nextId,
    nextId := s2.nextId + 1 }

/-- Advance virtual time to `t`: every pending non-aborted task whose deadline
has been reached completes its sleep and fires its announcement (recorded at
its deadline); aborted tasks are cancelled at their sleep await point and
disappear without firing. -/
def runUntil (s : SchedState) (t : Nat) : SchedState :=
  { s with
    now := t,
    tasks := s.tasks.filter (fun tk => !tk.aborted && decide (t < tk.deadline)),
    fired := s.fired ++
      (s.tasks.filter (fun tk => !tk.aborted && decide (tk.deadline ≤ t))).map
        (fun tk => (tk.deadline, tk.announcement)) }

/-- The slice of `AppState` that `stop_monitoring` touches: the scheduler of
the running monitor and the `is_monitoring` flag / monitor-task handle. -/
structure AppSt where
  sched : SchedState
  monitorRunning : Bool

/-- `stop_monitoring` (packages/tauri-app/src/commands.rs:139-154): errors if
not monitoring; otherwise aborts the monitor task's JoinHandle and clears the
flag.  It never touches `active_timers` or the spawned timer tasks, which were
spawned independently on the runtime — so `sched` is carried over unchanged. -/
def stopMonitoring (app : AppSt) : Except String AppSt :=
  if app.monitorRunning then
    Except.ok { sched := app.sched, monitorRunning := false }
  else Except.error "Not currently monitoring"

/-- The synthesis loop inside `TtsEngine::precache` (packages/audio/src/lib.rs:
105-113): for each text in order, synthesize (propagating the first failure
with `?`) and insert into a fresh local map. -/
def buildSamples {α : Type} (synth : Str → Except String α) :
    List Str → List (Str × α) → Except String (List (Str × α))
  | [], m => Except.ok m
  | t :: ts, m =>
    match synth t with
    | .error e => Except.error e
    | .ok s => buildSamples synth ts (mapInsert m t s)

/-- `HashMap::extend`: insert every entry of the batch map into the cache. -/
def cacheExtend {α : Type} : List (Str × α) → List (Str × α) → List (Str × α)
  | c, [] => c
  | c, (k, v) :: rest => cacheExtend (mapInsert c k v) rest

/-- `TtsEngine::precache` (packages/audio/src/lib.rs:100-124): synthesize all
texts into a local map; on any failure the error propagates and the shared
cache is never touched; on success the cache is extended with the batch. -/
def precache {α : Type} (synth : Str → Except String α) (cache : List (Str × α))
    (texts : List Str) : Except String (List (Str × α)) :=
  match buildSamples synth texts [] with
  | .error e => Except.error e
  | .ok m => Except.ok (cacheExtend cache m)

/-- The sequence of texts `precache` actually hands to the synthesizer: every
text in order, stopping right after the first failing one. -/
def precacheCalls {α : Type} (synth : Str → Except String α) : List Str → List Str
  | [] => []
  | t :: ts =>
    match synth t with
    | .error _ => [t]
    | .ok _ => t :: precacheCalls synth ts

/-- `TtsEngine::announce` (packages/audio/src/lib.rs:127-163): look the text up
in the shared cache; on a hit reuse the cached samples, on a miss synthesize on
demand; then play.  The successful result carries the samples that were played
and the cache as the call leaves it — the function has no write path into the
cache. -/
def announce {α : Type} (synth : Str → Except String α) (play : α → Except String Unit)
    (cache : List (Str × α)) (text : Str) : Except String (α × List (Str × α)) :=
  match (match lookupMap cache text with
         | some s => Except.ok s
         | none => synth text) with
  | .error e => Except.error e
  | .ok samples =>
    match play samples with
    | .error e => Except.error e
    | .ok _ => Except.ok (samples, cache)

/-- One directory entry as `find_most_recent_log` sees it: a file name and a
last-modified timestamp. -/
structure DirEntry where
  name : Str
  mtime : Nat
deriving DecidableEq

/-- The scan loop of `find_most_recent_log` (packages/monitor/src/lib.rs:28-52
and identically src/src/log_monitor.rs:26-50): keep the entry with the greatest
mtime among those whose name starts with the fixed prefix, replacing the held
best only on a strictly greater mtime. -/
def findMostRecentGo (pfx : Str) : Option DirEntry → List DirEntry → Option DirEntry
  | best, [] => best
  | best, e :: rest =>
    if startsWith e.name pfx then
      match best with
      | none => findMostRecentGo pfx (some e) rest
      | some b =>
        if b.mtime < e.mtime then findMostRecentGo pfx (some e) rest
        else findMostRecentGo pfx (some b) rest
    else findMostRecentGo pfx best rest

/-- `find_most_recent_log`: scan the listing with no current best. -/
def findMostRecentLog (pfx : Str) (entries : List DirEntry) : Option DirEntry :=
  findMostRecentGo pfx none entries

/- ### Basic lemmas about the string primitives and the map model -/

theorem startsWith_iff (l p : Str) : startsWith l p = true ↔ p <+: l := by
  induction p generalizing l with
  | nil => cases l <;> simp [startsWith]
  | cons ph pt ih =>
    cases l with
    | nil => simp [startsWith]
    | cons c cs =>
      simp only [startsWith, List.cons_prefix_cons]
      by_cases h : c = ph
      · subst h
        simp [ih]
      · rw [if_neg h]
        simp only [Bool.false_eq_true, false_iff]
        exact fun hcon => h hcon.1.symm

theorem strContains_iff (l p : Str) : strContains l p = true ↔ p <:+: l := by
  induction l with
  | nil =>
    simp [strContains, List.infix_nil, List.isEmpty_iff]
  | cons c cs ih =>
    simp only [strContains, Bool.or_eq_true, ih, startsWith_iff]
    exact List.infix_cons_iff.symm

theorem lookupMap_nil {α : Type} (k : Str) : lookupMap ([] : List (Str × α)) k = none := rfl

theorem lookupMap_cons {α : Type} (k : Str) (v : α) (rest : List (Str × α)) (key : Str) :
    lookupMap ((k, v) :: rest) key = if k = key then some v else lookupMap rest key := rfl

theorem lookupMap_mapInsert {α : Type} (m : List (Str × α)) (k : Str) (v : α) (key : Str) :
    lookupMap (mapInsert m k v) key = if k = key then some v else lookupMap m key := by
  induction m with
  | nil => simp [mapInsert, lookupMap]
  | cons hd rest ih =>
    obtain ⟨k2, w⟩ := hd
    by_cases h : k2 = k
    · subst h
      simp only [mapInsert, if_pos rfl, lookupMap]
      by_cases hk : k2 = key <;> simp [hk]
    · simp only [mapInsert, if_neg h, lookupMap]
      by_cases h2 : k2 = key
      · subst h2
        rw [if_pos rfl, if_neg (fun hh => h hh.symm), if_pos rfl]
      · simp [h2, ih]

/- ### C4: the pattern matcher -/

/-- C4 (counterexample): the line "ab" contains both configured patterns "a"
and "b", yet the legacy matcher of src/src/log_monitor.rs returns only the
first map entry's announcement — not all matching rules. -/
theorem c4_counterexample :
    strContains ['a', 'b'] ['a'] = true ∧ strContains ['a', 'b'] ['b'] = true ∧
    matchMessageLegacy [(['a'], ['x']), (['b'], ['y'])] ['a', 'b'] = some ['x'] := by
  decide

/-- C4 (amended): the workspace matcher `match_message`
(packages/monitor/src/lib.rs) is a pure order-preserving filter: its result is
a sublist of the rule sequence and a rule is in the result iff the line
contains its pattern as a case-sensitive substring, all matching rules being
returned.  The legacy matcher (src/src/log_monitor.rs) instead returns at most
one announcement: the first entry of its map iteration whose pattern the line
contains. -/
theorem c4_match_filter (messages : List MessageConfig) (line : Str) :
    (matchMessage messages line).Sublist messages ∧
    (∀ mc, mc ∈ matchMessage messages line ↔ mc ∈ messages ∧ mc.pattern <:+: line) ∧
    (∀ (mp : List (Str × Str)) (l2 a : Str),
       matchMessageLegacy mp l2 = some a →
       ∃ l1 p r, mp = l1 ++ (p, a) :: r ∧ p <:+: l2 ∧ ∀ q ∈ l1, ¬ (q.1 <:+: l2)) := by
  refine ⟨List.filter_sublist messages, ?_, ?_⟩
  · intro mc
    simp [matchMessage, List.mem_filter, strContains_iff]
  · intro mp
    induction mp with
    | nil => intro l2 a h; simp [matchMessageLegacy] at h
    | cons hd rest ih =>
      obtain ⟨p0, a0⟩ := hd
      intro l2 a h
      by_cases hc : strContains l2 p0 = true
      · simp only [matchMessageLegacy, if_pos hc, Option.some_inj] at h
        subst h
        exact ⟨[], p0, rest, rfl, (strContains_iff l2 p0).mp hc, by simp⟩
      · simp only [matchMessageLegacy, if_neg hc] at h
        obtain ⟨l1, p, r, heq, hinf, hnone⟩ := ih l2 a h
        refine ⟨(p0, a0) :: l1, p, r, by simp [heq], hinf, ?_⟩
        intro q hq
        rcases List.mem_cons.mp hq with hq | hq
        · subst hq
          exact fun hcon => hc ((strContains_iff l2 p0).mpr hcon)
        · exact hnone q hq

/-- C4 witness: the amended theorem applied to the two-entry legacy map on the
line "ab". -/
theorem c4_match_filter_witness :
    ∃ l1 p r, ([(['a'], ['x']), (['b'], ['y'])] : List (Str × Str))
        = l1 ++ (p, ['x']) :: r ∧ p <:+: ['a', 'b'] ∧ ∀ q ∈ l1, ¬ (q.1 <:+: ['a', 'b']) :=
  (c4_match_filter [] []).2.2 [(['a'], ['x']), (['b'], ['y'])] ['a', 'b'] ['x'] (by decide)

/- ### C9: the no-batch sentinel -/

/-- C9: `process_one_batch` returns the `None` sentinel exactly when the first
read yields zero bytes (no line in the window); whenever at least one line was
read it returns `Some` batch, so "no data" is distinguishable from "batch with
zero matches". -/
theorem c9_eof_sentinel (messages : List MessageConfig) (lines : List Str) :
    (processOneBatch messages lines = none ↔ lines = []) ∧
    (∀ l rest, ∃ b, processOneBatch messages (l :: rest) = some b) := by
  constructor
  · cases lines <;> simp [processOneBatch]
  · intro l rest
    exact ⟨_, rfl⟩

/-- C9 witness: empty input yields the sentinel; a single non-matching line
yields a batch (with zero matches). -/
theorem c9_eof_sentinel_witness :
    processOneBatch [] [] = none ∧ ∃ b, processOneBatch [] [['a']] = some b :=
  ⟨(c9_eof_sentinel [] []).1.mpr rfl, (c9_eof_sentinel [] []).2 ['a'] []⟩

/- ### C3: batch deduplication of immediate announcements -/

theorem mem_setInsert_self (s : List Str) (x : Str) : x ∈ setInsert s x := by
  unfold setInsert
  by_cases h : x ∈ s <;> simp [h]

theorem mem_setInsert_of_mem (s : List Str) (x y : Str) (h : x ∈ s) : x ∈ setInsert s y := by
  unfold setInsert
  by_cases h2 : y ∈ s <;> simp [h2, h]

theorem setInsert_nodup (s : List Str) (x : Str) (h : s.Nodup) : (setInsert s x).Nodup := by
  unfold setInsert
  by_cases h2 : x ∈ s
  · simpa [h2]
  · simp only [h2, if_false]
    rw [List.nodup_append]
    refine ⟨h, List.nodup_singleton x, ?_⟩
    intro a ha hax
    exact h2 (by simpa [List.mem_singleton.mp hax] using ha)

theorem applyMatch_imm_mono (acc : List Str × TimedMap) (mc : MessageConfig) (x : Str)
    (h : x ∈ acc.1) : x ∈ (applyMatch acc mc).1 := by
  cases mc with
  | Simple p a => exact mem_setInsert_of_mem _ _ _ h
  | TimedDelay p a d => exact h

theorem applyMatches_imm_mono (mcs : List MessageConfig) (acc : List Str × TimedMap)
    (x : Str) (h : x ∈ acc.1) : x ∈ (applyMatches acc mcs).1 := by
  induction mcs generalizing acc with
  | nil => exact h
  | cons mc rest ih => exact ih _ (applyMatch_imm_mono _ _ _ h)

theorem applyMatches_imm_mem (mcs : List MessageConfig) (acc : List Str × TimedMap)
    (pat ann : Str) (h : MessageConfig.Simple pat ann ∈ mcs) :
    ann ∈ (applyMatches acc mcs).1 := by
  induction mcs generalizing acc with
  | nil => simp at h
  | cons mc rest ih =>
    rcases List.mem_cons.mp h with h | h
    · subst h
      exact applyMatches_imm_mono rest _ ann (mem_setInsert_self _ _)
    · exact ih _ h

theorem applyMatch_imm_nodup (acc : List Str × TimedMap) (mc : MessageConfig)
    (h : acc.1.Nodup) : (applyMatch acc mc).1.Nodup := by
  cases mc with
  | Simple p a => exact setInsert_nodup _ _ h
  | TimedDelay p a d => exact h

theorem applyMatches_imm_nodup (mcs : List MessageConfig) (acc : List Str × TimedMap)
    (h : acc.1.Nodup) : (applyMatches acc mcs).1.Nodup := by
  induction mcs generalizing acc with
  | nil => exact h
  | cons mc rest ih => exact ih _ (applyMatch_imm_nodup _ _ h)

theorem processBatchLines_imm_mono (messages : List MessageConfig) (lines : List Str)
    (acc : List Str × TimedMap) (x : Str) (h : x ∈ acc.1) :
    x ∈ (processBatchLines messages acc lines).1 := by
  induction lines generalizing acc with
  | nil => exact h
  | cons l rest ih =>
    exact ih _ (applyMatches_imm_mono _ _ _ h)

theorem processBatchLines_imm_nodup (messages : List MessageConfig) (lines : List Str)
    (acc : List Str × TimedMap) (h : acc.1.Nodup) :
    (processBatchLines messages acc lines).1.Nodup := by
  induction lines generalizing acc with
  | nil => exact h
  | cons l rest ih => exact ih _ (applyMatches_imm_nodup _ _ h)

/-- C3: a batch window of N identical lines (N ≥ 1) each matching a `Simple`
rule yields a batch whose immediate set holds exactly one entry for that rule's
announcement text, regardless of N. -/
theorem c3_dedup (messages : List MessageConfig) (line pat ann : Str) (n : Nat)
    (hn : 1 ≤ n) (hmem : MessageConfig.Simple pat ann ∈ messages)
    (hmatch : strContains line pat = true) :
    ∃ b, processOneBatch messages (List.replicate n line) = some b ∧
      b.immediate.countP (fun x => decide (x = ann)) = 1 := by
  obtain ⟨m, rfl⟩ : ∃ m, n = m + 1 := ⟨n - 1, by omega⟩
  rw [List.replicate_succ]
  refine ⟨_, rfl, ?_⟩
  have hSimple : MessageConfig.Simple pat ann ∈ matchMessage messages line := by
    refine List.mem_filter.mpr ⟨hmem, ?_⟩
    simpa [MessageConfig.pattern] using hmatch
  have hmemimm : ann ∈ (processBatchLines messages
      (classifyLine messages ([], []) line) (List.replicate m line)).1 := by
    unfold classifyLine
    exact processBatchLines_imm_mono _ _ _ _ (applyMatches_imm_mem _ _ _ _ hSimple)
  have hnd : (processBatchLines messages
      (classifyLine messages ([], []) line) (List.replicate m line)).1.Nodup := by
    unfold classifyLine
    exact processBatchLines_imm_nodup _ _ _ (applyMatches_imm_nodup _ _ (by simp))
  exact List.count_eq_one_of_mem hnd hmemimm

/-- C3 witness: five copies of a line matching the rule (pattern "a",
announcement "x") yield exactly one "x" in the batch's immediate set. -/
theorem c3_dedup_witness :
    ∃ b, processOneBatch [MessageConfig.Simple ['a'] ['x']]
        (List.replicate 5 ['a']) = some b ∧
      b.immediate.countP (fun x => decide (x = ['x'])) = 1 :=
  c3_dedup [MessageConfig.Simple ['a'] ['x']] ['a'] ['a'] ['x'] 5
    (by decide) (by decide) (by decide)

/- ### C5: the delayed map is keyed by pattern, last match wins -/

theorem lastFor_append (p : Str) (s1 s2 : List (Str × (Str × Nat)))
    (dflt : Option (Str × Nat)) :
    lastFor p (s1 ++ s2) dflt = lastFor p s2 (lastFor p s1 dflt) := by
  induction s1 generalizing dflt with
  | nil => simp [lastFor]
  | cons hd rest ih =>
    obtain ⟨k, v⟩ := hd
    simp [lastFor, ih]

theorem applyMatches_timed_lookup (mcs : List MessageConfig) (acc : List Str × TimedMap)
    (p : Str) :
    lookupMap (applyMatches acc mcs).2 p
      = lastFor p (mcs.filterMap toTimed) (lookupMap acc.2 p) := by
  induction mcs generalizing acc with
  | nil => simp [applyMatches, lastFor]
  | cons mc rest ih =>
    cases mc with
    | Simple pat ann =>
      rw [List.filterMap_cons_none (by simp [toTimed])]
      exact ih _
    | TimedDelay pat ann d =>
      simp only [List.filterMap_cons, toTimed]
      simp only [applyMatches, applyMatch, lastFor]
      rw [ih]
      congr 1
      exact lookupMap_mapInsert _ _ _ _

theorem processBatchLines_timed_lookup (messages : List MessageConfig) (lines : List Str)
    (acc : List Str × TimedMap) (p : Str) :
    lookupMap (processBatchLines messages acc lines).2 p
      = lastFor p (timedMatchSeq messages lines) (lookupMap acc.2 p) := by
  induction lines generalizing acc with
  | nil => simp [processBatchLines, timedMatchSeq, lastFor]
  | cons l rest ih =>
    simp only [processBatchLines, timedMatchSeq]
    rw [ih, lastFor_append, classifyLine, applyMatches_timed_lookup]

theorem mapInsert_cons_eq {α : Type} (k : Str) (w v : α) (rest : List (Str × α)) :
    mapInsert ((k, w) :: rest) k v = (k, v) :: rest := by
  show (if k = k then (k, v) :: rest else (k, w) :: mapInsert rest k v) = (k, v) :: rest
  rw [if_pos rfl]

theorem mapInsert_cons_ne {α : Type} (k2 k : Str) (h : k2 ≠ k) (w : α) (v : α)
    (rest : List (Str × α)) :
    mapInsert ((k2, w) :: rest) k v = (k2, w) :: mapInsert rest k v := by
  simp only [mapInsert, if_neg h]

theorem mem_keys_mapInsert {α : Type} (m : List (Str × α)) (k : Str) (v : α) (x : Str) :
    x ∈ (mapInsert m k v).map Prod.fst ↔ x = k ∨ x ∈ m.map Prod.fst := by
  induction m with
  | nil =>
    show x ∈ [(k, v)].map Prod.fst ↔ _
    simp
  | cons hd rest ih =>
    obtain ⟨k2, w⟩ := hd
    by_cases h : k2 = k
    · subst h
      rw [mapInsert_cons_eq]
      simp only [List.map_cons, List.mem_cons]
      tauto
    · rw [mapInsert_cons_ne _ _ h]
      simp only [List.map_cons, List.mem_cons, ih]
      tauto

theorem mapInsert_uniqKeys {α : Type} (m : List (Str × α)) (k : Str) (v : α)
    (h : (m.map Prod.fst).Nodup) : ((mapInsert m k v).map Prod.fst).Nodup := by
  induction m with
  | nil =>
    show ([(k, v)].map Prod.fst).Nodup
    simp
  | cons hd rest ih =>
    obtain ⟨k2, w⟩ := hd
    simp only [List.map_cons, List.nodup_cons] at h
    by_cases hk : k2 = k
    · subst hk
      rw [mapInsert_cons_eq]
      simp only [List.map_cons, List.nodup_cons]
      exact h
    · rw [mapInsert_cons_ne _ _ hk]
      simp only [List.map_cons, List.nodup_cons]
      refine ⟨?_, ih h.2⟩
      rw [mem_keys_mapInsert]
      rintro (rfl | hx)
      · exact hk rfl
      · exact h.1 hx

theorem applyMatches_timed_uniqKeys (mcs : List MessageConfig) (acc : List Str × TimedMap)
    (h : (acc.2.map Prod.fst).Nodup) : ((applyMatches acc mcs).2.map Prod.fst).Nodup := by
  induction mcs generalizing acc with
  | nil => exact h
  | cons mc rest ih =>
    cases mc with
    | Simple pat ann => exact ih _ h
    | TimedDelay pat ann d => exact ih _ (mapInsert_uniqKeys _ _ _ h)

theorem processBatchLines_timed_uniqKeys (messages : List MessageConfig) (lines : List Str)
    (acc : List Str × TimedMap) (h : (acc.2.map Prod.fst).Nodup) :
    ((processBatchLines messages acc lines).2.map Prod.fst).Nodup := by
  induction lines generalizing acc with
  | nil => exact h
  | cons l rest ih => exact ih _ (applyMatches_timed_uniqKeys _ _ h)

/-- C5: within one batch the delayed map is keyed by the rule's pattern: it
holds at most one entry per pattern (its key list is duplicate-free), and the
entry under pattern `p` is exactly the `(announcement, delay)` of the LAST
delayed match for `p` observed in the batch's processing order — so two
delayed rules sharing a pattern but differing in announcement text collapse to
the last one observed. -/
theorem c5_delayed_key_last_wins (messages : List MessageConfig) (lines : List Str)
    (b : BatchResult) (p : Str) (h : processOneBatch messages lines = some b) :
    lookupMap b.timed_delay p = lastFor p (timedMatchSeq messages lines) none ∧
    (b.timed_delay.map Prod.fst).Nodup := by
  cases lines with
  | nil => simp [processOneBatch] at h
  | cons l rest =>
    have hb : b = ⟨(processBatchLines messages (classifyLine messages ([], []) l) rest).1,
        (processBatchLines messages (classifyLine messages ([], []) l) rest).2⟩ := by
      simpa [processOneBatch] using h.symm
    subst hb
    constructor
    · show lookupMap (processBatchLines messages (classifyLine messages ([], []) l) rest).2 p = _
      rw [processBatchLines_timed_lookup]
      simp only [timedMatchSeq, lastFor_append]
      rw [classifyLine, applyMatches_timed_lookup]
      rfl
    · show ((processBatchLines messages (classifyLine messages ([], []) l) rest).2.map Prod.fst).Nodup
      refine processBatchLines_timed_uniqKeys _ _ _ ?_
      exact applyMatches_timed_uniqKeys _ ([], []) (by simp)

/-- C5 witness: two delayed rules share pattern "p" with announcements "x" and
"y"; one matching line leaves a single entry under "p" holding the later
match ("y", 7). -/
theorem c5_delayed_key_last_wins_witness :
    lookupMap (BatchResult.mk [] [(['p'], (['y'], 7))]).timed_delay ['p']
      = lastFor ['p']
          (timedMatchSeq [MessageConfig.TimedDelay ['p'] ['x'] 5,
                          MessageConfig.TimedDelay ['p'] ['y'] 7] [['p']]) none ∧
    ((BatchResult.mk [] [(['p'], (['y'], 7))]).timed_delay.map Prod.fst).Nodup :=
  c5_delayed_key_last_wins
    [MessageConfig.TimedDelay ['p'] ['x'] 5, MessageConfig.TimedDelay ['p'] ['y'] 7]
    [['p']] (BatchResult.mk [] [(['p'], (['y'], 7))]) ['p'] (by decide)

/- ### C1: debounce — a second schedule for the same key supersedes the first -/

/-- C1: scheduling (key, a, da) at time 0 and then (key, b, db) at time t1
before the first timer fires (t1 < da) cancels the first timer: at every later
time exactly one announcement has fired — the second one, at t1 + db (the
second call's delay measured from the second call) — and the first call's
announcement never fires. -/
theorem c1_debounce_second_wins (key a b : Str) (da db t1 t : Nat) (h1 : t1 < da) :
    (runUntil (schedule (runUntil (schedule initState key a da) t1) key b db) t).fired
      = if t1 + db ≤ t then [(t1 + db, b)] else [] := by
  have e1 : schedule initState key a da
      = ⟨0, 1, [⟨0, 0 + da, a, false⟩], [(key, 0)], []⟩ := rfl
  have hx : t1 < da := h1
  have hy : ¬ da ≤ t1 := by omega
  have e2 : runUntil (schedule initState key a da) t1
      = ⟨t1, 1, [⟨0, 0 + da, a, false⟩], [(key, 0)], []⟩ := by
    rw [e1]
    simp [runUntil, hx, hy]
  have e3 : schedule (runUntil (schedule initState key a da) t1) key b db
      = ⟨t1, 2, [⟨0, 0 + da, a, true⟩, ⟨1, t1 + db, b, false⟩], [(key, 1)], []⟩ := by
    rw [e2]
    simp [schedule, lookupMap, removeKey, abortTask, mapInsert]
  rw [e3]
  by_cases h2 : t1 + db ≤ t
  · simp [runUntil, h2]
  · simp [runUntil, h2]

/-- C1 witness: the spec's scenario — schedule(A, 5s), 1s later schedule(B, 5s)
for the same key — fires exactly B, at 6s from the first call. -/
theorem c1_debounce_second_wins_witness :
    (runUntil (schedule (runUntil (schedule initState ['k'] ['a'] 5) 1) ['k'] ['b'] 5) 6).fired
      = if 1 + 5 ≤ 6 then [(1 + 5, ['b'])] else [] :=
  c1_debounce_second_wins ['k'] ['a'] ['b'] 5 5 1 6 (by decide)

/- ### C2: natural expiry does NOT remove the registry entry -/

/-- C2 (counterexample): a timer scheduled for pattern "p" fires naturally at
its deadline, yet its entry is still in the active-timer registry afterwards —
the spawned task in `schedule_timed_delay` only sleeps and announces, it never
removes itself from `active_timers`. -/
theorem c2_counterexample :
    (runUntil (schedule initState ['p'] ['x'] 5) 5).fired = [(5, ['x'])] ∧
    lookupMap (runUntil (schedule initState ['p'] ['x'] 5) 5).registry ['p'] ≠ none := by
  decide

/-- C2 (amended): after the configured delay elapses the timer fires its
announcement exactly once, but its registry entry is NOT removed on natural
expiry: the stale entry (still holding the fired task's handle id) persists
until a later `schedule` for the same pattern replaces it — at which point the
abort of the already-finished handle is a no-op and only the fresh task is
pending. -/
theorem c2_stale_entry (key ann : Str) (d t : Nat) (h : d ≤ t) :
    (runUntil (schedule initState key ann d) t).fired = [(d, ann)] ∧
    lookupMap (runUntil (schedule initState key ann d) t).registry key = some 0 ∧
    ∀ ann2 d2,
      lookupMap (schedule (runUntil (schedule initState key ann d) t) key ann2 d2).registry key
        = some 1 ∧
      (schedule (runUntil (schedule initState key ann d) t) key ann2 d2).tasks
        = [⟨1, t + d2, ann2, false⟩] := by
  have e1 : schedule initState key ann d
      = ⟨0, 1, [⟨0, 0 + d, ann, false⟩], [(key, 0)], []⟩ := rfl
  have hx : ¬ t < d := by omega
  have hy : d ≤ t := h
  have e2 : runUntil (schedule initState key ann d) t
      = ⟨t, 1, [], [(key, 0)], [(0 + d, ann)]⟩ := by
    rw [e1]
    simp [runUntil, hx, hy]
  refine ⟨by rw [e2]; simp, by rw [e2]; simp [lookupMap], ?_⟩
  intro ann2 d2
  rw [e2]
  constructor
  · simp [schedule, lookupMap, removeKey, abortTask, mapInsert]
  · simp [schedule, lookupMap, removeKey, abortTask, mapInsert]

/-- C2 witness: delay 5, observed at time 5 — the announcement fired, the
stale entry remains, and a re-schedule replaces it with the fresh handle. -/
theorem c2_stale_entry_witness :
    (runUntil (schedule initState ['q'] ['x'] 5) 5).fired = [(5, ['x'])] ∧
    lookupMap (schedule (runUntil (schedule initState ['q'] ['x'] 5) 5) ['q'] ['y'] 7).registry
        ['q'] = some 1 :=
  ⟨(c2_stale_entry ['q'] ['x'] 5 5 (by decide)).1,
   ((c2_stale_entry ['q'] ['x'] 5 5 (by decide)).2.2 ['y'] 7).1⟩

/- ### C6: stopping the session does not abort in-flight delayed timers -/

/-- C6 (code evaluated at the failing input): with one delayed timer pending,
`stop_monitoring` succeeds — it aborts only the monitor task's JoinHandle and
clears the flag — and the pending timer task, which was spawned independently
and is never aborted, still fires its announcement after the stop. -/
theorem c6_stop_leaves_timers (key ann : Str) (d t : Nat) (ht : d ≤ t) :
    ∃ app2, stopMonitoring ⟨schedule initState key ann d, true⟩ = Except.ok app2 ∧
      app2.monitorRunning = false ∧ (runUntil app2.sched t).fired = [(d, ann)] := by
  refine ⟨⟨schedule initState key ann d, false⟩, rfl, rfl, ?_⟩
  show (runUntil (schedule initState key ann d) t).fired = [(d, ann)]
  have e1 : schedule initState key ann d
      = ⟨0, 1, [⟨0, 0 + d, ann, false⟩], [(key, 0)], []⟩ := rfl
  have hx : ¬ t < d := by omega
  have hy : d ≤ t := ht
  rw [e1]
  simp [runUntil, hx, hy]

/-- C6 witness: pattern "p", announcement "x", delay 5; stop at once, then
5 time units later the announcement has fired anyway. -/
theorem c6_stop_leaves_timers_witness :
    ∃ app2, stopMonitoring ⟨schedule initState ['p'] ['x'] 5, true⟩ = Except.ok app2 ∧
      app2.monitorRunning = false ∧ (runUntil app2.sched 5).fired = [(5, ['x'])] :=
  c6_stop_leaves_timers ['p'] ['x'] 5 5 (by decide)

/- ### C7: precache is all-or-nothing and fail-fast -/

theorem lookupMap_none_of_not_mem_keys {α : Type} (m : List (Str × α)) (k : Str)
    (h : k ∉ m.map Prod.fst) : lookupMap m k = none := by
  induction m with
  | nil => rfl
  | cons hd rest ih =>
    obtain ⟨k2, w⟩ := hd
    simp only [List.map_cons, List.mem_cons] at h
    push_neg at h
    show (if k2 = k then some w else lookupMap rest k) = none
    rw [if_neg (fun hh : k2 = k => h.1 hh.symm)]
    exact ih h.2

theorem lookupMap_cacheExtend_of_none {α : Type} (m : List (Str × α)) (c : List (Str × α))
    (k : Str) (h : lookupMap m k = none) :
    lookupMap (cacheExtend c m) k = lookupMap c k := by
  induction m generalizing c with
  | nil => rfl
  | cons hd rest ih =>
    obtain ⟨k2, w⟩ := hd
    simp only [lookupMap] at h
    by_cases hk : k2 = k
    · rw [if_pos hk] at h
      cases h
    · rw [if_neg hk] at h
      show lookupMap (cacheExtend (mapInsert c k2 w) rest) k = _
      rw [ih _ h, lookupMap_mapInsert, if_neg hk]

theorem lookupMap_cacheExtend_of_some {α : Type} (m : List (Str × α)) (c : List (Str × α))
    (k : Str) (v : α) (hm : (m.map Prod.fst).Nodup) (h : lookupMap m k = some v) :
    lookupMap (cacheExtend c m) k = some v := by
  induction m generalizing c with
  | nil => cases h
  | cons hd rest ih =>
    obtain ⟨k2, w⟩ := hd
    simp only [List.map_cons, List.nodup_cons] at hm
    simp only [lookupMap] at h
    by_cases hk : k2 = k
    · subst hk
      rw [if_pos rfl] at h
      obtain rfl : w = v := by injection h
      have hrest : lookupMap rest k2 = none :=
        lookupMap_none_of_not_mem_keys rest k2 hm.1
      show lookupMap (cacheExtend (mapInsert c k2 w) rest) k2 = some w
      rw [lookupMap_cacheExtend_of_none rest _ k2 hrest, lookupMap_mapInsert, if_pos rfl]
    · rw [if_neg hk] at h
      exact ih _ hm.2 h

theorem buildSamples_ok {α : Type} (synth : Str → Except String α) (ts : List Str)
    (m : List (Str × α)) (hts : ∀ t ∈ ts, ∃ s, synth t = Except.ok s)
    (hm : (m.map Prod.fst).Nodup)
    (hagree : ∀ k s, lookupMap m k = some s → synth k = Except.ok s) :
    ∃ m2, buildSamples synth ts m = Except.ok m2 ∧ (m2.map Prod.fst).Nodup ∧
      (∀ k s, lookupMap m2 k = some s → synth k = Except.ok s) ∧
      (∀ t ∈ ts, lookupMap m2 t ≠ none) ∧
      (∀ k, lookupMap m k ≠ none → lookupMap m2 k ≠ none) := by
  induction ts generalizing m with
  | nil =>
    exact ⟨m, rfl, hm, hagree, by simp, fun k hk => hk⟩
  | cons t ts ih =>
    obtain ⟨s, hs⟩ := hts t (List.mem_cons_self t ts)
    have step : buildSamples synth (t :: ts) m = buildSamples synth ts (mapInsert m t s) := by
      show (match synth t with
            | .error e => Except.error e
            | .ok s2 => buildSamples synth ts (mapInsert m t s2)) = _
      rw [hs]
    obtain ⟨m2, hrun, hnd, hagr, hmem, hpres⟩ :=
      ih (mapInsert m t s) (fun u hu => hts u (List.mem_cons_of_mem t hu))
        (mapInsert_uniqKeys m t s hm)
        (fun k s2 hk => by
          rw [lookupMap_mapInsert] at hk
          by_cases hkt : t = k
          · subst hkt
            rw [if_pos rfl] at hk
            obtain rfl : s = s2 := by injection hk
            exact hs
          · rw [if_neg hkt] at hk
            exact hagree k s2 hk)
    refine ⟨m2, by rw [step]; exact hrun, hnd, hagr, ?_, ?_⟩
    · intro u hu
      rcases List.mem_cons.mp hu with rfl | hu2
      · refine hpres u ?_
        rw [lookupMap_mapInsert, if_pos rfl]
        simp
      · exact hmem u hu2
    · intro k hk
      refine hpres k ?_
      rw [lookupMap_mapInsert]
      by_cases hkt : t = k
      · simp [hkt]
      · rw [if_neg hkt]
        exact hk

theorem buildSamples_err {α : Type} (synth : Str → Except String α) (ts : List Str)
    (h : ∃ t ∈ ts, ∃ e, synth t = Except.error e) :
    ∀ m, ∃ e, buildSamples synth ts m = Except.error e := by
  induction ts with
  | nil => simp at h
  | cons t ts ih =>
    intro m
    cases hs : synth t with
    | error e =>
      refine ⟨e, ?_⟩
      show (match synth t with
            | .error e2 => Except.error e2
            | .ok s2 => buildSamples synth ts (mapInsert m t s2)) = _
      rw [hs]
    | ok s =>
      obtain ⟨t0, ht0, e0, he0⟩ := h
      rcases List.mem_cons.mp ht0 with rfl | ht0rest
      · rw [hs] at he0
        cases he0
      · obtain ⟨e, he⟩ := ih ⟨t0, ht0rest, e0, he0⟩ (mapInsert m t s)
        refine ⟨e, ?_⟩
        show (match synth t with
              | .error e2 => Except.error e2
              | .ok s2 => buildSamples synth ts (mapInsert m t s2)) = _
        rw [hs]
        exact he

theorem precacheCalls_all_ok {α : Type} (synth : Str → Except String α) (ts : List Str)
    (hts : ∀ t ∈ ts, ∃ s, synth t = Except.ok s) : precacheCalls synth ts = ts := by
  induction ts with
  | nil => rfl
  | cons t ts ih =>
    obtain ⟨s, hs⟩ := hts t (List.mem_cons_self t ts)
    show (match synth t with
          | .error _ => [t]
          | .ok _ => t :: precacheCalls synth ts) = t :: ts
    rw [hs]
    rw [ih (fun u hu => hts u (List.mem_cons_of_mem t hu))]

/-- C7: `precache` hands every given text to the synthesizer once, in order,
and on success the shared cache gains an entry for each text holding its
synthesized samples; if synthesis of any text fails, the whole pass aborts
with the error — the cache receives none of the batch's entries (the error
result carries no cache; the caller's cache is untouched). -/
theorem c7_precache_all_or_nothing (α : Type) (synth : Str → Except String α)
    (cache : List (Str × α)) (texts : List Str) :
    ((∀ t ∈ texts, ∃ s, synth t = Except.ok s) →
       precacheCalls synth texts = texts ∧
       ∃ c2, precache synth cache texts = Except.ok c2 ∧
         ∀ t ∈ texts, ∃ s, synth t = Except.ok s ∧ lookupMap c2 t = some s) ∧
    ((∃ t ∈ texts, ∃ e, synth t = Except.error e) →
       ∃ e, precache synth cache texts = Except.error e) := by
  constructor
  · intro hts
    refine ⟨precacheCalls_all_ok synth texts hts, ?_⟩
    obtain ⟨m2, hrun, hnd, hagr, hmem, _⟩ :=
      buildSamples_ok synth texts [] hts (by simp) (by intro k s hk; cases hk)
    refine ⟨cacheExtend cache m2, ?_, ?_⟩
    · unfold precache
      rw [hrun]
    · intro t ht
      cases hlk : lookupMap m2 t with
      | none => exact absurd hlk (hmem t ht)
      | some s =>
        exact ⟨s, hagr t s hlk, lookupMap_cacheExtend_of_some m2 cache t s hnd hlk⟩
  · intro herr
    obtain ⟨e, he⟩ := buildSamples_err synth texts herr []
    refine ⟨e, ?_⟩
    unfold precache
    rw [he]

/-- Concrete synthesizer for the C7 witness: fails on the text "b", succeeds
with the text's length elsewhere. -/
def synthW : Str → Except String Nat :=
  fun t => if t = ['b'] then Except.error "boom" else Except.ok t.length

/-- C7 witness: a batch of texts that all synthesize populates the cache with
one entry per text; a batch containing the failing text "b" aborts with an
error. -/
theorem c7_precache_all_or_nothing_witness :
    (precacheCalls synthW [['a'], ['c']] = [['a'], ['c']] ∧
     ∃ c2, precache synthW [] [['a'], ['c']] = Except.ok c2 ∧
       ∀ t ∈ [['a'], ['c']], ∃ s, synthW t = Except.ok s ∧ lookupMap c2 t = some s) ∧
    (∃ e, precache synthW [] [['a'], ['b']] = Except.error e) :=
  ⟨(c7_precache_all_or_nothing Nat synthW [] [['a'], ['c']]).1
      (by
        intro t ht
        fin_cases ht
        · exact ⟨1, rfl⟩
        · exact ⟨1, rfl⟩),
   (c7_precache_all_or_nothing Nat synthW [] [['a'], ['b']]).2
      ⟨['b'], by simp, "boom", rfl⟩⟩

/- ### C10: announce never modifies the shared audio cache -/

/-- C10: on every successful `announce` the cache it returns is exactly the
cache it was given — a hit reuses the cached samples, a miss synthesizes
samples used only for that call and never written back — so the cache's set of
entries is identical before and after the call and grows only through
`precache`. -/
theorem c10_announce_frame (α : Type) (synth : Str → Except String α)
    (play : α → Except String Unit) (cache : List (Str × α)) (text : Str) :
    (∀ s c2, announce synth play cache text = Except.ok (s, c2) → c2 = cache) ∧
    (lookupMap cache text = none →
      ∀ s c2, announce synth play cache text = Except.ok (s, c2) →
        synth text = Except.ok s ∧ lookupMap c2 text = none) ∧
    (∀ s0, lookupMap cache text = some s0 →
      ∀ s c2, announce synth play cache text = Except.ok (s, c2) →
        s = s0 ∧ c2 = cache) := by
  rcases hl : lookupMap cache text with _ | s0
  · rcases hs : synth text with e | s1
    · refine ⟨?_, ?_, ?_⟩
      · intro s c2 h
        simp [announce, hl, hs] at h
      · intro _ s c2 h
        simp [announce, hl, hs] at h
      · intro s0 h0
        cases h0
    · rcases hp : play s1 with e | u
      · refine ⟨?_, ?_, ?_⟩
        · intro s c2 h
          simp [announce, hl, hs, hp] at h
        · intro _ s c2 h
          simp [announce, hl, hs, hp] at h
        · intro s0 h0
          cases h0
      · refine ⟨?_, ?_, ?_⟩
        · intro s c2 h
          simp [announce, hl, hs, hp] at h
          exact h.2.symm
        · intro _ s c2 h
          simp [announce, hl, hs, hp] at h
          obtain ⟨rfl, rfl⟩ := h
          exact ⟨rfl, hl⟩
        · intro s0 h0
          cases h0
  · rcases hp : play s0 with e | u
    · refine ⟨?_, ?_, ?_⟩
      · intro s c2 h
        simp [announce, hl, hp] at h
      · intro h0
        cases h0
      · intro s1 h1 s c2 h
        simp [announce, hl, hp] at h
    · refine ⟨?_, ?_, ?_⟩
      · intro s c2 h
        simp [announce, hl, hp] at h
        exact h.2.symm
      · intro h0
        cases h0
      · intro s1 h1 s c2 h
        obtain rfl : s0 = s1 := by injection h1
        simp [announce, hl, hp] at h
        exact ⟨h.1.symm, h.2.symm⟩

/-- Concrete player for the C10 witness: always succeeds. -/
def playW : Nat → Except String Unit := fun _ => Except.ok ()

/-- C10 witness: a miss on an empty cache leaves the cache empty (no
write-back of the on-demand samples); a hit on a one-entry cache returns the
cached samples and the very same cache. -/
theorem c10_announce_frame_witness :
    (synthW ['a'] = Except.ok 1 ∧ lookupMap ([] : List (Str × Nat)) ['a'] = none) ∧
    (∀ s c2, announce synthW playW [] ['a'] = Except.ok (s, c2) →
       synthW ['a'] = Except.ok s ∧ lookupMap c2 ['a'] = none) ∧
    (∀ s c2, announce synthW playW [(['a'], 9)] ['a'] = Except.ok (s, c2) →
       s = 9 ∧ c2 = [(['a'], 9)]) :=
  ⟨⟨rfl, rfl⟩,
   (c10_announce_frame Nat synthW playW [] ['a']).2.1 rfl,
   (c10_announce_frame Nat synthW playW [(['a'], 9)] ['a']).2.2 9 rfl⟩

/- ### C8: the file selector returns the newest prefixed entry, first on ties -/

theorem findMostRecentGo_isSome (pfx : Str) (l : List DirEntry) :
    ∀ b, ∃ m, findMostRecentGo pfx (some b) l = some m := by
  induction l with
  | nil => exact fun b => ⟨b, rfl⟩
  | cons e rest ih =>
    intro b
    by_cases hsw : startsWith e.name pfx
    · by_cases hbe : b.mtime < e.mtime
      · obtain ⟨m, hm⟩ := ih e
        exact ⟨m, by simpa [findMostRecentGo, hsw, hbe] using hm⟩
      · obtain ⟨m, hm⟩ := ih b
        exact ⟨m, by simpa [findMostRecentGo, hsw, hbe] using hm⟩
    · obtain ⟨m, hm⟩ := ih b
      exact ⟨m, by simpa [findMostRecentGo, hsw] using hm⟩

theorem findMostRecentGo_some_spec (pfx : Str) (l : List DirEntry) :
    ∀ (b m : DirEntry),
      findMostRecentGo pfx (some b) l = some m →
      ((m = b ∧ ∀ e ∈ l, startsWith e.name pfx = true → e.mtime ≤ b.mtime)
       ∨ (b.mtime < m.mtime ∧ startsWith m.name pfx = true ∧
          ∃ l1 l2, l = l1 ++ m :: l2 ∧
            (∀ e ∈ l1, startsWith e.name pfx = true → e.mtime < m.mtime) ∧
            (∀ e ∈ l2, startsWith e.name pfx = true → e.mtime ≤ m.mtime))) := by
  induction l with
  | nil =>
    intro b m h
    obtain rfl : b = m := by injection h
    exact Or.inl ⟨rfl, by simp⟩
  | cons e rest ih =>
    intro b m h
    by_cases hsw : startsWith e.name pfx
    · by_cases hbe : b.mtime < e.mtime
      · have h2 : findMostRecentGo pfx (some e) rest = some m := by
          simpa [findMostRecentGo, hsw, hbe] using h
        rcases ih e m h2 with ⟨rfl, hle⟩ | ⟨hlt, hm, l1, l2, heq, h1, hsuf⟩
        · refine Or.inr ⟨hbe, hsw, [], rest, by simp, by simp, hle⟩
        · refine Or.inr ⟨lt_trans hbe hlt, hm, e :: l1, l2, by simp [heq], ?_, hsuf⟩
          intro e2 he2 hsw2
          rcases List.mem_cons.mp he2 with rfl | he2rest
          · exact hlt
          · exact h1 e2 he2rest hsw2
      · have h2 : findMostRecentGo pfx (some b) rest = some m := by
          simpa [findMostRecentGo, hsw, hbe] using h
        rcases ih b m h2 with ⟨rfl, hle⟩ | ⟨hlt, hm, l1, l2, heq, h1, hsuf⟩
        · refine Or.inl ⟨rfl, ?_⟩
          intro e2 he2 hsw2
          rcases List.mem_cons.mp he2 with rfl | he2rest
          · omega
          · exact hle e2 he2rest hsw2
        · refine Or.inr ⟨hlt, hm, e :: l1, l2, by simp [heq], ?_, hsuf⟩
          intro e2 he2 hsw2
          rcases List.mem_cons.mp he2 with rfl | he2rest
          · omega
          · exact h1 e2 he2rest hsw2
    · have h2 : findMostRecentGo pfx (some b) rest = some m := by
        simpa [findMostRecentGo, hsw] using h
      rcases ih b m h2 with ⟨rfl, hle⟩ | ⟨hlt, hm, l1, l2, heq, h1, hsuf⟩
      · refine Or.inl ⟨rfl, ?_⟩
        intro e2 he2 hsw2
        rcases List.mem_cons.mp he2 with rfl | he2rest
        · exact absurd hsw2 hsw
        · exact hle e2 he2rest hsw2
      · refine Or.inr ⟨hlt, hm, e :: l1, l2, by simp [heq], ?_, hsuf⟩
        intro e2 he2 hsw2
        rcases List.mem_cons.mp he2 with rfl | he2rest
        · exact absurd hsw2 hsw
        · exact h1 e2 he2rest hsw2

/-- C8: on every directory listing, the selector returns `none` exactly when
no entry's name carries the prefix; and when it returns an entry `m`, then `m`
carries the prefix, `m`'s last-modified timestamp is maximal among all
prefixed entries, and every prefixed entry scanned before `m` has a strictly
smaller timestamp — so on equal timestamps the selector keeps whichever
matching entry was encountered first in the scan. -/
theorem c8_select_most_recent (pfx : Str) (entries : List DirEntry) :
    (findMostRecentLog pfx entries = none ↔
       ∀ e ∈ entries, ¬ startsWith e.name pfx = true) ∧
    (∀ m, findMostRecentLog pfx entries = some m →
       startsWith m.name pfx = true ∧
       (∀ e ∈ entries, startsWith e.name pfx = true → e.mtime ≤ m.mtime) ∧
       ∃ l1 l2, entries = l1 ++ m :: l2 ∧
         ∀ e ∈ l1, startsWith e.name pfx = true → e.mtime < m.mtime) := by
  induction entries with
  | nil =>
    refine ⟨by simp [findMostRecentLog, findMostRecentGo], ?_⟩
    intro m h
    cases h
  | cons e rest ih =>
    by_cases hsw : startsWith e.name pfx
    · have hgo : findMostRecentLog pfx (e :: rest) = findMostRecentGo pfx (some e) rest := by
        simp [findMostRecentLog, findMostRecentGo, hsw]
      constructor
      · rw [hgo]
        obtain ⟨m, hm⟩ := findMostRecentGo_isSome pfx rest e
        rw [hm]
        simp only [false_iff, reduceCtorEq]
        intro hall
        exact absurd hsw (hall e (List.mem_cons_self e rest))
      · intro m h
        rw [hgo] at h
        rcases findMostRecentGo_some_spec pfx rest e m h with
          ⟨rfl, hle⟩ | ⟨hlt, hm, l1, l2, heq, h1, hsuf⟩
        · refine ⟨hsw, ?_, [], rest, by simp, by simp⟩
          intro e2 he2 hsw2
          rcases List.mem_cons.mp he2 with rfl | he2rest
          · exact le_refl _
          · exact hle e2 he2rest hsw2
        · refine ⟨hm, ?_, e :: l1, l2, by simp [heq], ?_⟩
          · intro e2 he2 hsw2
            rcases List.mem_cons.mp he2 with rfl | he2rest
            · exact le_of_lt hlt
            · rw [heq] at he2rest
              rcases List.mem_append.mp he2rest with hin1 | hin2
              · exact le_of_lt (h1 e2 hin1 hsw2)
              · rcases List.mem_cons.mp hin2 with rfl | hin2tail
                · exact le_refl _
                · exact hsuf e2 hin2tail hsw2
          · intro e2 he2 hsw2
            rcases List.mem_cons.mp he2 with rfl | he2rest
            · exact hlt
            · exact h1 e2 he2rest hsw2
    · have hgo : findMostRecentLog pfx (e :: rest) = findMostRecentLog pfx rest := by
        simp [findMostRecentLog, findMostRecentGo, hsw]
      constructor
      · rw [hgo, ih.1]
        constructor
        · intro hall e2 he2
          rcases List.mem_cons.mp he2 with rfl | he2rest
          · exact hsw
          · exact hall e2 he2rest
        · intro hall e2 he2
          exact hall e2 (List.mem_cons_of_mem e he2)
      · intro m h
        rw [hgo] at h
        obtain ⟨hm, hle, l1, l2, heq, h1⟩ := ih.2 m h
        refine ⟨hm, ?_, e :: l1, l2, by simp [heq], ?_⟩
        · intro e2 he2 hsw2
          rcases List.mem_cons.mp he2 with rfl | he2rest
          · exact absurd hsw2 hsw
          · exact hle e2 he2rest hsw2
        · intro e2 he2 hsw2
          rcases List.mem_cons.mp he2 with rfl | he2rest
          · exact absurd hsw2 hsw
          · exact h1 e2 he2rest hsw2

/-- C8 witness: among entries "x"(9), "e1"(3), "e2"(7), "e3"(7) with prefix
"e", the selector returns "e2": prefixed, maximal timestamp, and the first of
the two entries tied at 7. -/
theorem c8_select_most_recent_witness :
    startsWith (DirEntry.mk ['e', '2'] 7).name ['e'] = true ∧
    (∀ e ∈ [DirEntry.mk ['x'] 9, DirEntry.mk ['e', '1'] 3,
            DirEntry.mk ['e', '2'] 7, DirEntry.mk ['e', '3'] 7],
       startsWith e.name ['e'] = true → e.mtime ≤ (DirEntry.mk ['e', '2'] 7).mtime) ∧
    ∃ l1 l2, [DirEntry.mk ['x'] 9, DirEntry.mk ['e', '1'] 3,
              DirEntry.mk ['e', '2'] 7, DirEntry.mk ['e', '3'] 7]
        = l1 ++ DirEntry.mk ['e', '2'] 7 :: l2 ∧
      ∀ e ∈ l1, startsWith e.name ['e'] = true → e.mtime < (DirEntry.mk ['e', '2'] 7).mtime :=
  (c8_select_most_recent ['e']
      [DirEntry.mk ['x'] 9, DirEntry.mk ['e', '1'] 3,
       DirEntry.mk ['e', '2'] 7, DirEntry.mk ['e', '3'] 7]).2
    (DirEntry.mk ['e', '2'] 7) (by decide)
